import Mathlib

/-!
Verification of the flat-map (dependent) domain combinator
(`fuzztest/internal/domains/flat_map_impl.h`).

The combinator is shallowly embedded: every domain is a record of pure
operations over an explicit randomness-stream state `R` (the C++ passes
`absl::BitGenRef` by reference; here each draw returns the advanced stream).
The combinator's corpus value `std::tuple<OC, IC...>` is embedded as
`OC × List IC`: the heterogeneous C++ parameter pack of input domains becomes
an ordered list of domains sharing a value type `IV` and corpus type `IC`;
all claims under study concern order, count and dataflow, not heterogeneity.
-/

namespace FuzzTest

/-- The serialized tree object: an order-preserving nested structure with a
sequence of child slots (`IRObject` with `Subs()` in the source). Scalar
payloads are opaque at this layer and carried as `Nat`. -/
inductive IRObject where
  | scalar : Nat → IRObject
  | subs : List IRObject → IRObject

/-- `obj.Subs()`: the child slots, absent on a scalar node. -/
def IRObject.getSubs : IRObject → Option (List IRObject)
  | .scalar _ => none
  | .subs l => some l

/-- `absl::Status` as used at this layer: success, or a failure carrying a
human-readable message. -/
inductive Status where
  | ok : Status
  | err : String → Status
deriving DecidableEq, Repr

/-- Modelled from the spec: `Prefix(s, msg)` from the status helpers (not under
`src/`) wraps a failure status with a context label and leaves success
untouched. -/
def Status.addContext : Status → String → Status
  | .ok, _ => .ok
  | .err e, m => .err (m ++ ": " ++ e)

/-- The Domain capability contract (spec section 6): the uniform interface every
domain, leaf or composite, implements. `R` is the randomness-stream state,
`V` the externally visible value type, `C` the corpus type. -/
structure Domain (R V C : Type) where
  init : R → C × R
  mutate : C → R → Bool → C × R
  getValue : C → V
  fromValue : V → Option C
  parseCorpus : IRObject → Option C
  serializeCorpus : C → IRObject
  validateCorpusValue : C → Status

/-- The flat-map combinator state: the mapper and the owned input-domain
sequence (`flat_mapper_` and `input_domains_`). `maybeGetRandomSeed` models
`DomainBase::MaybeGetRandomSeed` (spec: the random seed override mechanism,
not under `src/`), and `bernoulli` models the `absl::Bernoulli(prng, p)`
weighted draw collaborator; both consume the randomness stream. -/
structure FlatMapImpl (R IV IC OV OC : Type) where
  flat_mapper : List IV → Domain R OV OC
  input_domains : List (Domain R IV IC)
  maybeGetRandomSeed : R → Option (OC × List IC) × R
  bernoulli : R → ℚ → Bool × R

namespace FlatMapImpl

variable {R IV IC OV OC : Type}

/-- `std::get<I>(input_domains_).GetValue(std::get<I>(corpus))...`: materialize
the input values from the input corpora, positionally. -/
def getValues : List (Domain R IV IC) → List IC → List IV
  | [], _ => []
  | _ :: _, [] => []
  | d :: ds, c :: cs => d.getValue c :: getValues ds cs

/-- `GetOutputDomain(val)`: re-derive the ephemeral output domain by applying
the mapper to the input values materialized from the corpus value's input
components (the first component of `val` is the output corpus, so it is
skipped). -/
def GetOutputDomain (f : FlatMapImpl R IV IC OV OC) (val : OC × List IC) :
    Domain R OV OC :=
  f.flat_mapper (getValues f.input_domains val.2)

/-- `input_domains.Init(prng)...` folded in declared order over the shared
randomness stream. -/
def initAll : List (Domain R IV IC) → R → List IC × R
  | [], r => ([], r)
  | d :: ds, r =>
    let p := d.init r
    let q := initAll ds p.2
    (p.1 :: q.1, q.2)

/-- `FlatMapImpl::Init`: seed short-circuit, else draw each input corpus in
order, derive the output domain from the materialized input values, draw the
output corpus from its `Init`, and assemble `(output_corpus, inputs...)`. -/
def Init (f : FlatMapImpl R IV IC OV OC) (prng : R) : (OC × List IC) × R :=
  match f.maybeGetRandomSeed prng with
  | (some seed, r1) => (seed, r1)
  | (none, r1) =>
    let ic := initAll f.input_domains r1
    let output_domain := f.flat_mapper (getValues f.input_domains ic.1)
    let oc := output_domain.init ic.2
    ((oc.1, ic.1), oc.2)

/-- `std::get<I>(input_domains_).Mutate(std::get<I+1>(val), prng, only_shrink)`
folded in declared order over the shared randomness stream. -/
def mutateAll : List (Domain R IV IC) → List IC → R → Bool → List IC × R
  | [], _, r, _ => ([], r)
  | _ :: _, [], r, _ => ([], r)
  | d :: ds, c :: cs, r, s =>
    let p := d.mutate c r s
    let q := mutateAll ds cs p.2 s
    (p.1 :: q.1, q.2)

/-- `FlatMapImpl::Mutate`: when not shrinking, with a `Bernoulli(prng, 0.1)`
draw mutate the inputs in order and replace the output corpus with a fresh
`Init` draw from the re-derived output domain; otherwise mutate only the
output corpus with the output domain re-derived from the unchanged inputs.
The Bernoulli draw is short-circuited away when `only_shrink` is true. -/
def Mutate (f : FlatMapImpl R IV IC OV OC) (val : OC × List IC) (prng : R)
    (only_shrink : Bool) : (OC × List IC) × R :=
  let b :=
    if only_shrink then (false, prng) else f.bernoulli prng (1 / 10)
  if b.1 then
    let m := mutateAll f.input_domains val.2 b.2 only_shrink
    let oc := (f.GetOutputDomain (val.1, m.1)).init m.2
    ((oc.1, m.1), oc.2)
  else
    let oc := (f.GetOutputDomain val).mutate val.1 b.2 only_shrink
    ((oc.1, val.2), oc.2)

/-- `FlatMapImpl::GetValue`: project through the re-derived output domain. -/
def GetValue (f : FlatMapImpl R IV IC OV OC) (v : OC × List IC) : OV :=
  (f.GetOutputDomain v).getValue v.1

/-- `FlatMapImpl::FromValue`: always absent. -/
def FromValue (_ : FlatMapImpl R IV IC OV OC) (_ : OV) :
    Option (OC × List IC) :=
  none

/-- Serialize each component with its domain, positionally. -/
def serializeAll : List (Domain R IV IC) → List IC → List IRObject
  | [], _ => []
  | _ :: _, [] => []
  | d :: ds, c :: cs => d.serializeCorpus c :: serializeAll ds cs

/-- Modelled from the spec: `SerializeWithDomainTuple` (serialization helpers,
not under `src/`) applied to the tuple `(output_domain, input_domains...)`
and the corpus value produces a tree whose child slot 0 is the serialized
output corpus and whose slots 1..N are the serialized input corpora in
order. -/
def SerializeCorpus (f : FlatMapImpl R IV IC OV OC) (v : OC × List IC) :
    IRObject :=
  IRObject.subs
    ((f.GetOutputDomain v).serializeCorpus v.1 ::
      serializeAll f.input_domains v.2)

/-- Parse the given slots positionally against the domains, failing if a slot
is missing or a sub-parse fails; extra slots beyond the domains are not
consumed. -/
def parseAll : List (Domain R IV IC) → List IRObject → Option (List IC)
  | [], _ => some []
  | _ :: _, [] => none
  | d :: ds, o :: os =>
    match d.parseCorpus o, parseAll ds os with
    | some c, some cs => some (c :: cs)
    | _, _ => none

/-- Modelled from the spec: `ParseWithDomainTuple(input_domains_, obj, skip=1)`
(serialization helpers, not under `src/`) parses slots 1..N positionally
against the respective input domains, failing if the tree has no child slots,
slot 0 is missing, any of slots 1..N is missing, or any sub-parse fails. -/
def parseWithDomainTupleSkip1 (ds : List (Domain R IV IC)) (obj : IRObject) :
    Option (List IC) :=
  match obj.getSubs with
  | some (_ :: rest) => parseAll ds rest
  | _ => none

/-- `FlatMapImpl::ParseCorpus`: parse slots 1..N against the input domains,
derive the output domain from the parsed input values, parse slot 0 against
it, and assemble the corpus value; absence on any failure. -/
def ParseCorpus (f : FlatMapImpl R IV IC OV OC) (obj : IRObject) :
    Option (OC × List IC) :=
  match parseWithDomainTupleSkip1 f.input_domains obj with
  | none => none
  | some input_corpus =>
    let output_domain := f.flat_mapper (getValues f.input_domains input_corpus)
    match obj.getSubs with
    | none => none
    | some sl =>
      match sl.head? with
      | none => none
      | some s0 =>
        match output_domain.parseCorpus s0 with
        | none => none
        | some output_corpus => some (output_corpus, input_corpus)

/-- Validate the input corpus components in declared order, stopping at the
first failure, each failure wrapped with the flat-map context label. -/
def validateAll : List (Domain R IV IC) → List IC → Status
  | [], _ => .ok
  | _ :: _, [] => .ok
  | d :: ds, c :: cs =>
    match (d.validateCorpusValue c).addContext
        "Invalid value for FlatMap()-ed domain" with
    | .ok => validateAll ds cs
    | s => s

/-- `FlatMapImpl::ValidateCorpusValue`: check the inputs first, in order,
returning the first wrapped failure; only when all inputs are valid derive
the output domain and validate the output corpus against it. -/
def ValidateCorpusValue (f : FlatMapImpl R IV IC OV OC) (v : OC × List IC) :
    Status :=
  match validateAll f.input_domains v.2 with
  | .ok => (f.GetOutputDomain v).validateCorpusValue v.1
  | s => s

/-- Collaborator contract (spec section 6): each input domain's `Init` yields a
corpus value accepted by its own `ValidateCorpusValue`. -/
def InputInitValid (f : FlatMapImpl R IV IC OV OC) : Prop :=
  ∀ d ∈ f.input_domains, ∀ r, d.validateCorpusValue (d.init r).1 = .ok

/-- Collaborator contract: each input domain's `Mutate` preserves its own
`ValidateCorpusValue` acceptance. -/
def InputMutateKeepsValid (f : FlatMapImpl R IV IC OV OC) : Prop :=
  ∀ d ∈ f.input_domains, ∀ c r s, d.validateCorpusValue c = .ok →
    d.validateCorpusValue (d.mutate c r s).1 = .ok

/-- Collaborator contract: any output domain the mapper returns produces
`Init` values accepted by its own `ValidateCorpusValue`. -/
def OutputInitValid (f : FlatMapImpl R IV IC OV OC) : Prop :=
  ∀ vals r, (f.flat_mapper vals).validateCorpusValue
    ((f.flat_mapper vals).init r).1 = .ok

/-- Collaborator contract: any output domain the mapper returns has a `Mutate`
preserving its own `ValidateCorpusValue` acceptance. -/
def OutputMutateKeepsValid (f : FlatMapImpl R IV IC OV OC) : Prop :=
  ∀ vals c r s, (f.flat_mapper vals).validateCorpusValue c = .ok →
    (f.flat_mapper vals).validateCorpusValue
      ((f.flat_mapper vals).mutate c r s).1 = .ok

/-- Collaborator contract: the seed override mechanism only supplies full,
valid corpus values (spec: `Init` may return a caller-supplied corpus value
of the combinator, which is a complete `(output, inputs...)` tuple). -/
def SeedValid (f : FlatMapImpl R IV IC OV OC) : Prop :=
  ∀ r v r1, f.maybeGetRandomSeed r = (some v, r1) →
    f.ValidateCorpusValue v = .ok ∧ v.2.length = f.input_domains.length

/-- Collaborator contract: each input domain's serialization round-trips with
its own parsing. -/
def InputRoundTrip (f : FlatMapImpl R IV IC OV OC) : Prop :=
  ∀ d ∈ f.input_domains, ∀ c, d.parseCorpus (d.serializeCorpus c) = some c

/-- Collaborator contract: any output domain the mapper returns has a
serialization round-tripping with its own parsing. -/
def OutputRoundTrip (f : FlatMapImpl R IV IC OV OC) : Prop :=
  ∀ vals c, (f.flat_mapper vals).parseCorpus
    ((f.flat_mapper vals).serializeCorpus c) = some c

/-- The corpus values producible through the combinator's own generation
operations: anything `Init` returns, closed under `Mutate`. -/
inductive Producible (f : FlatMapImpl R IV IC OV OC) : OC × List IC → Prop
  | init : ∀ r, Producible f (f.Init r).1
  | mutate : ∀ v r s, Producible f v → Producible f (f.Mutate v r s).1

end FlatMapImpl

/-- Concrete leaf domain for evaluation: a `Nat` domain whose `Init` always
yields `k`, with identity mutation, scalar serialization and a validator
accepting everything. -/
def okDomain (k : Nat) : Domain (List Bool) Nat Nat where
  init := fun r => (k, r)
  mutate := fun c r _ => (c, r)
  getValue := fun c => c
  fromValue := fun v => some v
  parseCorpus := fun o =>
    match o with
    | .scalar n => some n
    | .subs _ => none
  serializeCorpus := fun c => .scalar c
  validateCorpusValue := fun _ => .ok

/-- Concrete leaf domain for evaluation: like `okDomain 0` but its validator
rejects odd corpus values. -/
def evenDomain : Domain (List Bool) Nat Nat where
  init := fun r => (0, r)
  mutate := fun c r _ => (c, r)
  getValue := fun c => c
  fromValue := fun v => some v
  parseCorpus := fun o =>
    match o with
    | .scalar n => some n
    | .subs _ => none
  serializeCorpus := fun c => .scalar c
  validateCorpusValue := fun c => if c % 2 = 0 then .ok else .err "odd value"

/-- Concrete combinator instance: one input domain fixed at 3, mapper summing
the input values into a new `okDomain`, no seed override, and a Bernoulli
draw reading the head of the boolean stream. -/
def fmA : FlatMapImpl (List Bool) Nat Nat Nat Nat where
  flat_mapper := fun vals => okDomain (vals.foldl (fun a b => a + b) 0)
  input_domains := [okDomain 3]
  maybeGetRandomSeed := fun r => (none, r)
  bernoulli := fun r _ => (r.headD false, r.drop 1)

/-- Concrete combinator instance with two parity-checked input domains and a
parity-checked output domain, for exercising validation ordering. -/
def fmB : FlatMapImpl (List Bool) Nat Nat Nat Nat where
  flat_mapper := fun _ => evenDomain
  input_domains := [evenDomain, evenDomain]
  maybeGetRandomSeed := fun r => (none, r)
  bernoulli := fun r _ => (r.headD false, r.drop 1)

/-- Concrete combinator instance with zero input domains. -/
def fmZero : FlatMapImpl (List Bool) Nat Nat Nat Nat where
  flat_mapper := fun _ => okDomain 7
  input_domains := []
  maybeGetRandomSeed := fun r => (none, r)
  bernoulli := fun r _ => (r.headD false, r.drop 1)

section Lemmas

variable {R IV IC OV OC : Type}

lemma Status.addContext_eq_ok (s : Status) (m : String) :
    s.addContext m = .ok ↔ s = .ok := by
  cases s <;> simp [Status.addContext]

lemma Status.addContext_err (e : String) (m : String) :
    (Status.err e).addContext m = .err (m ++ ": " ++ e) := rfl

namespace FlatMapImpl

lemma getOutputDomain_eq (f : FlatMapImpl R IV IC OV OC) (v : OC × List IC) :
    f.GetOutputDomain v = f.flat_mapper (getValues f.input_domains v.2) := rfl

lemma getOutputDomain_fst (f : FlatMapImpl R IV IC OV OC) (a b : OC)
    (l : List IC) : f.GetOutputDomain (a, l) = f.GetOutputDomain (b, l) := rfl

lemma initAll_length (ds : List (Domain R IV IC)) (r : R) :
    (initAll ds r).1.length = ds.length := by
  induction ds generalizing r with
  | nil => rfl
  | cons d ds ih => simp [initAll, ih]

lemma mutateAll_length (ds : List (Domain R IV IC)) (cs : List IC) (r : R)
    (s : Bool) (h : cs.length = ds.length) :
    (mutateAll ds cs r s).1.length = ds.length := by
  induction ds generalizing cs r with
  | nil => rfl
  | cons d ds ih =>
    cases cs with
    | nil => simp at h
    | cons c cs =>
      simp only [List.length_cons, Nat.succ_inj] at h
      simp [mutateAll, ih cs _ h]

lemma validateAll_ok_iff (ds : List (Domain R IV IC)) (cs : List IC) :
    validateAll ds cs = .ok ↔
      ∀ i (h1 : i < ds.length) (h2 : i < cs.length),
        (ds.get ⟨i, h1⟩).validateCorpusValue (cs.get ⟨i, h2⟩) = .ok := by
  induction ds generalizing cs with
  | nil =>
    simp only [validateAll]
    constructor
    · intro _ i h1 _; exact absurd h1 (Nat.not_lt_zero i)
    · intro _; trivial
  | cons d ds ih =>
    cases cs with
    | nil =>
      simp only [validateAll]
      constructor
      · intro _ i _ h2; exact absurd h2 (Nat.not_lt_zero i)
      · intro _; trivial
    | cons c cs =>
      simp only [validateAll]
      cases hd : d.validateCorpusValue c with
      | ok =>
        simp only [Status.addContext]
        rw [ih cs]
        constructor
        · intro h i h1 h2
          cases i with
          | zero => exact hd
          | succ j =>
            exact h j (Nat.lt_of_succ_lt_succ h1) (Nat.lt_of_succ_lt_succ h2)
        · intro h j h1 h2
          exact h (j + 1) (Nat.succ_lt_succ h1) (Nat.succ_lt_succ h2)
      | err e =>
        simp only [Status.addContext]
        constructor
        · intro h; cases h
        · intro h
          have h0 := h 0 (Nat.succ_pos _) (Nat.succ_pos _)
          simp only [List.get] at h0
          rw [hd] at h0
          cases h0

lemma validateAll_first_err (ds : List (Domain R IV IC)) (cs : List IC)
    (i : ℕ) (e : String) (h1 : i < ds.length) (h2 : i < cs.length)
    (hok : ∀ j (hj1 : j < ds.length) (hj2 : j < cs.length), j < i →
      (ds.get ⟨j, hj1⟩).validateCorpusValue (cs.get ⟨j, hj2⟩) = .ok)
    (herr : (ds.get ⟨i, h1⟩).validateCorpusValue (cs.get ⟨i, h2⟩) = .err e) :
    validateAll ds cs =
      .err ("Invalid value for FlatMap()-ed domain" ++ ": " ++ e) := by
  induction ds generalizing cs i with
  | nil => exact absurd h1 (Nat.not_lt_zero i)
  | cons d ds ih =>
    cases cs with
    | nil => exact absurd h2 (Nat.not_lt_zero i)
    | cons c cs =>
      cases i with
      | zero =>
        simp only [List.get] at herr
        simp [validateAll, herr, Status.addContext]
      | succ j =>
        have hd : d.validateCorpusValue c = .ok := by
          have := hok 0 (Nat.succ_pos _) (Nat.succ_pos _) (Nat.succ_pos _)
          simpa using this
        simp only [validateAll, hd, Status.addContext]
        exact ih cs j (Nat.lt_of_succ_lt_succ h1) (Nat.lt_of_succ_lt_succ h2)
          (fun k hk1 hk2 hk =>
            hok (k + 1) (Nat.succ_lt_succ hk1) (Nat.succ_lt_succ hk2)
              (Nat.succ_lt_succ hk))
          herr

lemma validateCorpusValue_eq_ok (f : FlatMapImpl R IV IC OV OC)
    (v : OC × List IC) :
    f.ValidateCorpusValue v = .ok ↔
      validateAll f.input_domains v.2 = .ok ∧
        (f.GetOutputDomain v).validateCorpusValue v.1 = .ok := by
  unfold ValidateCorpusValue
  cases h : validateAll f.input_domains v.2 with
  | ok => simp [h]
  | err e => simp [h]

lemma validateAll_mutateAll (ds : List (Domain R IV IC)) (cs : List IC)
    (r : R) (s : Bool)
    (hc : ∀ d ∈ ds, ∀ c r s, d.validateCorpusValue c = .ok →
      d.validateCorpusValue (d.mutate c r s).1 = .ok)
    (h : validateAll ds cs = .ok) :
    validateAll ds (mutateAll ds cs r s).1 = .ok := by
  induction ds generalizing cs r with
  | nil => rfl
  | cons d ds ih =>
    cases cs with
    | nil => rfl
    | cons c cs =>
      simp only [validateAll] at h
      cases hd : d.validateCorpusValue c with
      | ok =>
        rw [hd] at h
        simp only [Status.addContext] at h
        have hd2 := hc d (List.mem_cons_self d ds) c r s hd
        simp only [mutateAll, validateAll, hd2, Status.addContext]
        exact ih cs _ (fun d2 hd2m => hc d2 (List.mem_cons_of_mem d hd2m)) h
      | err e =>
        rw [hd] at h
        simp [Status.addContext] at h

lemma validateAll_initAll (ds : List (Domain R IV IC)) (r : R)
    (hc : ∀ d ∈ ds, ∀ r, d.validateCorpusValue (d.init r).1 = .ok) :
    validateAll ds (initAll ds r).1 = .ok := by
  induction ds generalizing r with
  | nil => rfl
  | cons d ds ih =>
    have hd := hc d (List.mem_cons_self d ds) r
    simp only [initAll, validateAll, hd, Status.addContext]
    exact ih _ (fun d2 hd2m => hc d2 (List.mem_cons_of_mem d hd2m))

lemma mutate_valid (f : FlatMapImpl R IV IC OV OC) (v : OC × List IC) (r : R)
    (s : Bool) (hin : InputMutateKeepsValid f) (hoi : OutputInitValid f)
    (hom : OutputMutateKeepsValid f)
    (hv : f.ValidateCorpusValue v = .ok) :
    f.ValidateCorpusValue (f.Mutate v r s).1 = .ok := by
  obtain ⟨v1, v2⟩ := v
  rw [validateCorpusValue_eq_ok] at hv
  obtain ⟨hvi, hvo⟩ := hv
  unfold Mutate
  cases hb : (if s then (false, r) else f.bernoulli r (1 / 10)).1 with
  | true =>
    simp only [hb, if_true]
    rw [validateCorpusValue_eq_ok]
    constructor
    · exact validateAll_mutateAll _ _ _ _ hin hvi
    · exact hoi _ _
  | false =>
    simp only [hb, if_false]
    rw [validateCorpusValue_eq_ok]
    exact ⟨hvi, hom _ _ _ _ hvo⟩

lemma init_valid (f : FlatMapImpl R IV IC OV OC) (r : R)
    (hseed : SeedValid f) (hii : InputInitValid f) (hoi : OutputInitValid f) :
    f.ValidateCorpusValue (f.Init r).1 = .ok := by
  unfold Init
  cases hm : f.maybeGetRandomSeed r with
  | mk o r1 =>
    cases o with
    | some seed => exact (hseed r seed r1 hm).1
    | none =>
      rw [validateCorpusValue_eq_ok]
      exact ⟨validateAll_initAll _ _ hii, hoi _ _⟩

lemma init_length (f : FlatMapImpl R IV IC OV OC) (r : R)
    (hseed : SeedValid f) :
    ((f.Init r).1).2.length = f.input_domains.length := by
  unfold Init
  cases hm : f.maybeGetRandomSeed r with
  | mk o r1 =>
    cases o with
    | some seed => exact (hseed r seed r1 hm).2
    | none => exact initAll_length _ _

lemma mutate_length (f : FlatMapImpl R IV IC OV OC) (v : OC × List IC) (r : R)
    (s : Bool) (h : v.2.length = f.input_domains.length) :
    ((f.Mutate v r s).1).2.length = f.input_domains.length := by
  unfold Mutate
  cases hb : (if s then (false, r) else f.bernoulli r (1 / 10)).1 with
  | true =>
    simp only [hb, if_true]
    exact mutateAll_length _ _ _ _ h
  | false =>
    simp only [hb, if_false]
    exact h

lemma producible_valid (f : FlatMapImpl R IV IC OV OC) (v : OC × List IC)
    (hp : Producible f v) (hseed : SeedValid f) (hii : InputInitValid f)
    (hin : InputMutateKeepsValid f) (hoi : OutputInitValid f)
    (hom : OutputMutateKeepsValid f) :
    f.ValidateCorpusValue v = .ok := by
  induction hp with
  | init r => exact init_valid f r hseed hii hoi
  | mutate w r s _ ih => exact mutate_valid f w r s hin hoi hom ih

lemma producible_length (f : FlatMapImpl R IV IC OV OC) (v : OC × List IC)
    (hp : Producible f v) (hseed : SeedValid f) :
    v.2.length = f.input_domains.length := by
  induction hp with
  | init r => exact init_length f r hseed
  | mutate w r s _ ih => exact mutate_length f w r s ih

lemma serializeAll_length (ds : List (Domain R IV IC)) (cs : List IC)
    (h : cs.length = ds.length) :
    (serializeAll ds cs).length = ds.length := by
  induction ds generalizing cs with
  | nil => rfl
  | cons d ds ih =>
    cases cs with
    | nil => simp at h
    | cons c cs =>
      simp only [List.length_cons, Nat.succ_inj] at h
      simp [serializeAll, ih cs h]

lemma serializeAll_get (ds : List (Domain R IV IC)) (cs : List IC) (i : ℕ)
    (h1 : i < ds.length) (h2 : i < cs.length)
    (h3 : i < (serializeAll ds cs).length) :
    (serializeAll ds cs).get ⟨i, h3⟩ =
      (ds.get ⟨i, h1⟩).serializeCorpus (cs.get ⟨i, h2⟩) := by
  induction ds generalizing cs i with
  | nil => exact absurd h1 (Nat.not_lt_zero i)
  | cons d ds ih =>
    cases cs with
    | nil => exact absurd h2 (Nat.not_lt_zero i)
    | cons c cs =>
      cases i with
      | zero => rfl
      | succ j =>
        exact ih cs j (Nat.lt_of_succ_lt_succ h1) (Nat.lt_of_succ_lt_succ h2)
          (by simpa [serializeAll] using h3)

lemma parseAll_serializeAll (ds : List (Domain R IV IC)) (cs : List IC)
    (hrt : ∀ d ∈ ds, ∀ c, d.parseCorpus (d.serializeCorpus c) = some c)
    (hlen : cs.length = ds.length) :
    parseAll ds (serializeAll ds cs) = some cs := by
  induction ds generalizing cs with
  | nil =>
    cases cs with
    | nil => rfl
    | cons c cs => simp at hlen
  | cons d ds ih =>
    cases cs with
    | nil => simp at hlen
    | cons c cs =>
      simp only [List.length_cons, Nat.succ_inj] at hlen
      have hd := hrt d (List.mem_cons_self d ds) c
      simp only [serializeAll, parseAll, hd,
        ih cs (fun d2 h2 => hrt d2 (List.mem_cons_of_mem d h2)) hlen]

lemma parse_serialize (f : FlatMapImpl R IV IC OV OC) (v : OC × List IC)
    (hirt : InputRoundTrip f) (hort : OutputRoundTrip f)
    (hlen : v.2.length = f.input_domains.length) :
    f.ParseCorpus (f.SerializeCorpus v) = some v := by
  obtain ⟨v1, v2⟩ := v
  unfold ParseCorpus SerializeCorpus parseWithDomainTupleSkip1
  simp only [IRObject.getSubs]
  rw [parseAll_serializeAll _ _ hirt hlen]
  simp only [List.head?]
  have hout := hort (getValues f.input_domains v2) v1
  simp only [GetOutputDomain] at hout ⊢
  rw [hout]

lemma parseCorpus_eq_some_iff (f : FlatMapImpl R IV IC OV OC)
    (obj : IRObject) (oc : OC) (ics : List IC) :
    f.ParseCorpus obj = some (oc, ics) ↔
      ∃ s0 rest, obj = IRObject.subs (s0 :: rest) ∧
        parseAll f.input_domains rest = some ics ∧
        (f.flat_mapper (getValues f.input_domains ics)).parseCorpus s0 =
          some oc := by
  cases obj with
  | scalar n =>
    simp only [ParseCorpus, parseWithDomainTupleSkip1, IRObject.getSubs]
    constructor
    · intro h; cases h
    · rintro ⟨s0, rest, h, -, -⟩; cases h
  | subs sl =>
    cases sl with
    | nil =>
      simp only [ParseCorpus, parseWithDomainTupleSkip1, IRObject.getSubs]
      constructor
      · intro h; cases h
      · rintro ⟨s0, rest, h, -, -⟩; cases h
    | cons s0 rest =>
      simp only [ParseCorpus, parseWithDomainTupleSkip1, IRObject.getSubs,
        List.head?]
      cases hp : parseAll f.input_domains rest with
      | none =>
        constructor
        · intro h; cases h
        · rintro ⟨s1, rest1, h, hp1, -⟩
          injection h with h
          injection h with h1 h2
          subst h1; subst h2
          rw [hp] at hp1; cases hp1
      | some ics1 =>
        dsimp only
        cases ho : (f.flat_mapper (getValues f.input_domains ics1)).parseCorpus
            s0 with
        | none =>
          dsimp only
          constructor
          · intro h; cases h
          · rintro ⟨s1, rest1, h, hp1, ho1⟩
            injection h with h
            injection h with h1 h2
            subst h1; subst h2
            rw [hp] at hp1
            injection hp1 with hp1
            subst hp1
            rw [ho] at ho1; cases ho1
        | some oc1 =>
          dsimp only
          constructor
          · intro h
            injection h with h
            rw [Prod.mk.injEq] at h
            obtain ⟨h1, h2⟩ := h
            subst h1; subst h2
            exact ⟨s0, rest, rfl, hp, ho⟩
          · rintro ⟨s1, rest1, h, hp1, ho1⟩
            injection h with h
            injection h with h1 h2
            subst h1; subst h2
            rw [hp] at hp1
            injection hp1 with hp1
            subst hp1
            rw [ho] at ho1
            injection ho1 with ho1
            subst ho1
            rfl

end FlatMapImpl

lemma fmA_input_domains_eq : fmA.input_domains = [okDomain 3] := rfl

lemma fmA_seedValid : FlatMapImpl.SeedValid fmA := by
  intro r v r1 h
  simp [fmA] at h

lemma fmA_inputInitValid : FlatMapImpl.InputInitValid fmA := by
  intro d hd r
  rw [fmA_input_domains_eq, List.mem_singleton] at hd
  subst hd
  rfl

lemma fmA_inputMutateKeepsValid : FlatMapImpl.InputMutateKeepsValid fmA := by
  intro d hd c r s h
  rw [fmA_input_domains_eq, List.mem_singleton] at hd
  subst hd
  rfl

lemma fmA_outputInitValid : FlatMapImpl.OutputInitValid fmA := by
  intro vals r
  rfl

lemma fmA_outputMutateKeepsValid : FlatMapImpl.OutputMutateKeepsValid fmA := by
  intro vals c r s h
  rfl

lemma fmA_inputRoundTrip : FlatMapImpl.InputRoundTrip fmA := by
  intro d hd c
  rw [fmA_input_domains_eq, List.mem_singleton] at hd
  subst hd
  rfl

lemma fmA_outputRoundTrip : FlatMapImpl.OutputRoundTrip fmA := by
  intro vals c
  rfl

end Lemmas

section Claims

open FlatMapImpl

variable {R IV IC OV OC : Type}

/-- Claim C3: for every corpus value `v` (in particular every valid one) and
every randomness stream, `Mutate(v, rng, shrink_only=true)` leaves every input
corpus component unchanged; only the output corpus component may differ. -/
theorem claim_C3 (f : FlatMapImpl R IV IC OV OC) (v : OC × List IC) (r : R) :
    ((f.Mutate v r true).1).2 = v.2 := rfl

/-- Claim C9: for every value `x` of the combinator's value type,
`FromValue(x)` returns absence; there is no input on which it returns a corpus
value. -/
theorem claim_C9 (f : FlatMapImpl R IV IC OV OC) (x : OV) :
    f.FromValue x = none := rfl

/-- Claim C6: `ParseCorpus(t)` succeeds with the assembled corpus value
`(output_corpus, input_corpus_1..N)` exactly when the tree has child slots,
slot 0 is present, slots 1..N all parse against the input domains, and slot 0
parses against the output domain derived from the parsed input values; in every
other situation (any slot missing or any sub-parse failing) it returns absence,
never a partial corpus value. -/
theorem claim_C6 (f : FlatMapImpl R IV IC OV OC) (obj : IRObject) (oc : OC)
    (ics : List IC) :
    f.ParseCorpus obj = some (oc, ics) ↔
      ∃ s0 rest, obj = IRObject.subs (s0 :: rest) ∧
        parseAll f.input_domains rest = some ics ∧
        (f.flat_mapper (getValues f.input_domains ics)).parseCorpus s0 =
          some oc :=
  FlatMapImpl.parseCorpus_eq_some_iff f obj oc ics

/-- Claim C7: `SerializeCorpus(v)` produces a tree with exactly N+1 child
slots: slot 0 is the output corpus serialized by the output domain derived from
`v`'s input corpora, and slots 1..N are the input corpora serialized by the
corresponding input domains, in declared order. -/
theorem claim_C7 (f : FlatMapImpl R IV IC OV OC) (v : OC × List IC)
    (hlen : v.2.length = f.input_domains.length) :
    (f.SerializeCorpus v).getSubs =
      some ((f.GetOutputDomain v).serializeCorpus v.1 ::
        serializeAll f.input_domains v.2) ∧
    (serializeAll f.input_domains v.2).length = f.input_domains.length ∧
    ∀ i (h1 : i < f.input_domains.length) (h2 : i < v.2.length)
      (h3 : i < (serializeAll f.input_domains v.2).length),
      (serializeAll f.input_domains v.2).get ⟨i, h3⟩ =
        (f.input_domains.get ⟨i, h1⟩).serializeCorpus (v.2.get ⟨i, h2⟩) :=
  ⟨rfl, FlatMapImpl.serializeAll_length _ _ hlen,
    fun i h1 h2 h3 => FlatMapImpl.serializeAll_get _ _ i h1 h2 h3⟩

/-- Witness for claim C7 at a concrete instance: one input domain, corpus value
`(8, [3])`; the serialized tree has the two expected slots. -/
theorem claim_C7_witness :
    ([3] : List ℕ).length = fmA.input_domains.length ∧
    (fmA.SerializeCorpus (8, [3])).getSubs =
      some [IRObject.scalar 8, IRObject.scalar 3] := by
  refine ⟨rfl, ?_⟩
  have h := (claim_C7 fmA (8, [3]) rfl).1
  exact h

/-- Claim C8: `Init(rng)` returns the seed corpus value unchanged when the
random seed override supplies one; otherwise it draws each input corpus from
its domain's `Init` in declared order on the same stream, derives the output
domain via the mapper applied to the materialized input values, draws the
output corpus from that domain's `Init`, and returns
`(output_corpus, input_corpus_1..N)`. -/
theorem claim_C8 (f : FlatMapImpl R IV IC OV OC) (r : R) :
    (∀ s r1, f.maybeGetRandomSeed r = (some s, r1) → f.Init r = (s, r1)) ∧
    (∀ r1, f.maybeGetRandomSeed r = (none, r1) →
      f.Init r =
        ((((f.flat_mapper (getValues f.input_domains
              (initAll f.input_domains r1).1)).init
              (initAll f.input_domains r1).2).1,
          (initAll f.input_domains r1).1),
         ((f.flat_mapper (getValues f.input_domains
              (initAll f.input_domains r1).1)).init
              (initAll f.input_domains r1).2).2)) := by
  constructor
  · intro s r1 h
    unfold FlatMapImpl.Init
    rw [h]
  · intro r1 h
    unfold FlatMapImpl.Init
    rw [h]

/-- Witness for claim C8 at a concrete instance: no seed is supplied, the one
input domain yields 3, the mapper sums the inputs, so `Init` returns
`((3, [3]), rest-of-stream)`. -/
theorem claim_C8_witness :
    fmA.maybeGetRandomSeed [] = (none, []) ∧
    fmA.Init [] = ((3, [3]), []) := by
  refine ⟨rfl, ?_⟩
  have h := (claim_C8 fmA []).2 [] rfl
  exact h

/-- Claim C1: for every valid corpus value `v`, every randomness stream and
every shrink flag, the result of `Mutate(v, rng, shrink_only)` is again
accepted by `ValidateCorpusValue`; in particular its output corpus is accepted
by the `ValidateCorpusValue` of the output domain derived from its (possibly
mutated) input corpora. This holds under the domain capability contract of the
collaborators: input-domain `Mutate` preserves validity, and every output
domain the mapper returns has a validity-establishing `Init` and a
validity-preserving `Mutate`. -/
theorem claim_C1 (f : FlatMapImpl R IV IC OV OC) (v : OC × List IC) (r : R)
    (s : Bool) (hin : InputMutateKeepsValid f) (hoi : OutputInitValid f)
    (hom : OutputMutateKeepsValid f)
    (hv : f.ValidateCorpusValue v = .ok) :
    f.ValidateCorpusValue (f.Mutate v r s).1 = .ok ∧
      (f.GetOutputDomain (f.Mutate v r s).1).validateCorpusValue
        ((f.Mutate v r s).1).1 = .ok := by
  have h := FlatMapImpl.mutate_valid f v r s hin hoi hom hv
  exact ⟨h, ((FlatMapImpl.validateCorpusValue_eq_ok f _).1 h).2⟩

/-- Witness for claim C1 at a concrete instance: the corpus value `(3, [3])`
is valid for `fmA` and stays valid after a `Mutate` call taking the
input-mutation branch. -/
theorem claim_C1_witness :
    fmA.ValidateCorpusValue (3, [3]) = .ok ∧
    fmA.ValidateCorpusValue (fmA.Mutate (3, [3]) [true] false).1 = .ok := by
  refine ⟨rfl, ?_⟩
  exact (claim_C1 fmA (3, [3]) [true] false fmA_inputMutateKeepsValid
    fmA_outputInitValid fmA_outputMutateKeepsValid rfl).1

/-- Claim C2: for every corpus value producible by `Init` or `Mutate`,
`ParseCorpus(SerializeCorpus(v))` yields some corpus value `w` (not absence),
`w` is accepted by `ValidateCorpusValue`, and `GetValue(w) = GetValue(v)`;
under the collaborator contract that each input domain's and every derived
output domain's serialization round-trips with its parsing (and the remaining
capability contract making producible values valid). -/
theorem claim_C2 (f : FlatMapImpl R IV IC OV OC) (v : OC × List IC)
    (hp : Producible f v) (hseed : SeedValid f) (hii : InputInitValid f)
    (hin : InputMutateKeepsValid f) (hoi : OutputInitValid f)
    (hom : OutputMutateKeepsValid f) (hirt : InputRoundTrip f)
    (hort : OutputRoundTrip f) :
    ∃ w, f.ParseCorpus (f.SerializeCorpus v) = some w ∧
      f.ValidateCorpusValue w = .ok ∧ f.GetValue w = f.GetValue v :=
  ⟨v,
    FlatMapImpl.parse_serialize f v hirt hort
      (FlatMapImpl.producible_length f v hp hseed),
    FlatMapImpl.producible_valid f v hp hseed hii hin hoi hom, rfl⟩

/-- Witness for claim C2 at a concrete instance: the corpus value produced by
`fmA.Init` round-trips through serialization into a valid corpus value with
the same user value. -/
theorem claim_C2_witness :
    ∃ w, fmA.ParseCorpus (fmA.SerializeCorpus (fmA.Init []).1) = some w ∧
      fmA.ValidateCorpusValue w = .ok ∧
      fmA.GetValue w = fmA.GetValue (fmA.Init []).1 :=
  claim_C2 fmA (fmA.Init []).1 (FlatMapImpl.Producible.init [])
    fmA_seedValid fmA_inputInitValid fmA_inputMutateKeepsValid
    fmA_outputInitValid fmA_outputMutateKeepsValid fmA_inputRoundTrip
    fmA_outputRoundTrip

/-- Claim C4: with `shrink_only = false`, `Mutate` takes the input-mutation
branch exactly when the weighted draw with probability 1/10 from the stream
succeeds; in that branch it mutates each input corpus component in declared
order with the same flag and stream, then replaces the output corpus with a
fresh draw from the `Init` of the output domain derived from the newly mutated
input values, discarding the previous output corpus. When the draw fails, the
inputs are left unchanged and only the output corpus is mutated. -/
theorem claim_C4 (f : FlatMapImpl R IV IC OV OC) (v : OC × List IC) (r : R) :
    (∀ r1, f.bernoulli r (1 / 10) = (true, r1) →
      f.Mutate v r false =
        ((((f.flat_mapper (getValues f.input_domains
              (mutateAll f.input_domains v.2 r1 false).1)).init
              (mutateAll f.input_domains v.2 r1 false).2).1,
          (mutateAll f.input_domains v.2 r1 false).1),
         ((f.flat_mapper (getValues f.input_domains
              (mutateAll f.input_domains v.2 r1 false).1)).init
              (mutateAll f.input_domains v.2 r1 false).2).2)) ∧
    (∀ r1, f.bernoulli r (1 / 10) = (false, r1) →
      f.Mutate v r false =
        ((((f.GetOutputDomain v).mutate v.1 r1 false).1, v.2),
         ((f.GetOutputDomain v).mutate v.1 r1 false).2)) := by
  constructor
  · intro r1 h
    show (let b := f.bernoulli r (1 / 10);
      if b.1 then
        let m := mutateAll f.input_domains v.2 b.2 false
        let oc := (f.GetOutputDomain (v.1, m.1)).init m.2
        ((oc.1, m.1), oc.2)
      else
        let oc := (f.GetOutputDomain v).mutate v.1 b.2 false
        ((oc.1, v.2), oc.2)) = _
    rw [h]
    rfl
  · intro r1 h
    show (let b := f.bernoulli r (1 / 10);
      if b.1 then
        let m := mutateAll f.input_domains v.2 b.2 false
        let oc := (f.GetOutputDomain (v.1, m.1)).init m.2
        ((oc.1, m.1), oc.2)
      else
        let oc := (f.GetOutputDomain v).mutate v.1 b.2 false
        ((oc.1, v.2), oc.2)) = _
    rw [h]
    rfl

/-- Witness for claim C4 at a concrete instance: with the stream whose head
makes the weighted draw succeed, `fmA.Mutate` re-derives the output domain
from the mutated input and reinitializes the output corpus. -/
theorem claim_C4_witness :
    fmA.bernoulli [true, false] (1 / 10) = (true, [false]) ∧
    fmA.Mutate (3, [3]) [true, false] false = ((3, [3]), [false]) := by
  refine ⟨rfl, ?_⟩
  have h := (claim_C4 fmA (3, [3]) [true, false]).1 [false] rfl
  exact h

/-- Claim C5: `ValidateCorpusValue` checks the input corpus components against
their domains in declared order and returns the first input failure wrapped
with the flat-map context label, regardless of the validity of later inputs or
of the output; only when every input component is valid does it derive the
output domain and return the result of validating the output corpus against
it. -/
theorem claim_C5 (f : FlatMapImpl R IV IC OV OC) (v : OC × List IC) :
    (∀ i (h1 : i < f.input_domains.length) (h2 : i < v.2.length) e,
      (∀ j (hj1 : j < f.input_domains.length) (hj2 : j < v.2.length), j < i →
        (f.input_domains.get ⟨j, hj1⟩).validateCorpusValue
          (v.2.get ⟨j, hj2⟩) = .ok) →
      (f.input_domains.get ⟨i, h1⟩).validateCorpusValue (v.2.get ⟨i, h2⟩) =
        .err e →
      f.ValidateCorpusValue v =
        .err ("Invalid value for FlatMap()-ed domain" ++ ": " ++ e)) ∧
    ((∀ i (h1 : i < f.input_domains.length) (h2 : i < v.2.length),
        (f.input_domains.get ⟨i, h1⟩).validateCorpusValue
          (v.2.get ⟨i, h2⟩) = .ok) →
      f.ValidateCorpusValue v =
        (f.GetOutputDomain v).validateCorpusValue v.1) := by
  constructor
  · intro i h1 h2 e hok herr
    unfold FlatMapImpl.ValidateCorpusValue
    rw [FlatMapImpl.validateAll_first_err f.input_domains v.2 i e h1 h2 hok
      herr]
  · intro h
    unfold FlatMapImpl.ValidateCorpusValue
    rw [(FlatMapImpl.validateAll_ok_iff f.input_domains v.2).2 h]

/-- Witness for claim C5 at a concrete instance with both the first input
component and the output component invalid: the reported failure is the first
input's, wrapped with the context label, not the output's. -/
theorem claim_C5_witness :
    (fmB.GetOutputDomain (1, [1, 0])).validateCorpusValue 1 =
      .err "odd value" ∧
    fmB.ValidateCorpusValue (1, [1, 0]) =
      .err ("Invalid value for FlatMap()-ed domain" ++ ": " ++ "odd value") := by
  refine ⟨rfl, ?_⟩
  exact (claim_C5 fmB (1, [1, 0])).1 0 (by decide) (by decide) "odd value"
    (fun j hj1 hj2 hj => absurd hj (Nat.not_lt_zero j)) rfl

/-- Claim C10: with zero input domains every operation stays well-defined: the
output domain is re-derived as the mapper applied to the empty value list on
every operation, `Init` (without a seed) returns a corpus value whose only
content is an output corpus drawn from that domain's `Init` together with the
empty input tuple, and `Mutate` with `shrink_only = false` still takes the
input-mutation branch when the weighted draw succeeds, mutating no inputs but
replacing the output corpus with a fresh draw from the re-derived output
domain's `Init`. -/
theorem claim_C10 (f : FlatMapImpl R IV IC OV OC) (v : OC × List IC)
    (r r1 r2 : R) (h0 : f.input_domains = []) (hv : v.2 = []) :
    f.GetOutputDomain v = f.flat_mapper [] ∧
    (f.maybeGetRandomSeed r = (none, r1) →
      f.Init r = ((((f.flat_mapper []).init r1).1, []),
        ((f.flat_mapper []).init r1).2)) ∧
    (f.bernoulli r (1 / 10) = (true, r2) →
      (f.Mutate v r false).1.2 = v.2 ∧
      f.Mutate v r false = ((((f.flat_mapper []).init r2).1, []),
        ((f.flat_mapper []).init r2).2)) := by
  obtain ⟨v1, v2⟩ := v
  dsimp only at hv
  subst hv
  refine ⟨?_, ?_, ?_⟩
  · unfold FlatMapImpl.GetOutputDomain
    rw [h0]
    rfl
  · intro h
    unfold FlatMapImpl.Init
    rw [h, h0]
    rfl
  · intro h
    have hm : f.Mutate (v1, []) r false =
        ((((f.flat_mapper []).init r2).1, []),
          ((f.flat_mapper []).init r2).2) := by
      show (let b := f.bernoulli r (1 / 10);
        if b.1 then
          let m := mutateAll f.input_domains [] b.2 false
          let oc := (f.GetOutputDomain (v1, m.1)).init m.2
          ((oc.1, m.1), oc.2)
        else
          let oc := (f.GetOutputDomain (v1, [])).mutate v1 b.2 false
          ((oc.1, ([] : List IC)), oc.2)) = _
      rw [h]
      show ((((f.GetOutputDomain
          (v1, (mutateAll f.input_domains [] r2 false).1)).init
          (mutateAll f.input_domains [] r2 false).2).1,
        (mutateAll f.input_domains [] r2 false).1),
        ((f.GetOutputDomain
          (v1, (mutateAll f.input_domains [] r2 false).1)).init
          (mutateAll f.input_domains [] r2 false).2).2) = _
      unfold FlatMapImpl.GetOutputDomain
      rw [h0]
      rfl
    exact ⟨by rw [hm], hm⟩

/-- Witness for claim C10 at a concrete zero-input instance: `Init` yields
`((7, []), stream)` and an input-branch `Mutate` reinitializes the output
corpus from the zero-argument mapper call. -/
theorem claim_C10_witness :
    fmZero.input_domains = [] ∧
    fmZero.Init [true] = ((7, []), [true]) ∧
    fmZero.Mutate (7, []) [true] false = ((7, []), []) := by
  refine ⟨rfl, ?_, ?_⟩
  · exact (claim_C10 fmZero (7, []) [true] [true] [] rfl rfl).2.1 rfl
  · exact ((claim_C10 fmZero (7, []) [true] [true] [] rfl rfl).2.2 rfl).2

end Claims

end FuzzTest
